import Mathlib

/-!
Shallow embedding of the ETF rotation scoring and rebalancing core of
`backtrader_akshare_quant`, translated from
`src/strategies/etf_rotation_strategy_v2.py` (class `ETFRotationStrategy2`,
method `next`) and, for the scoring variant without the positive-score
admission filter, `src/strategies/etf_rotation_strategy_v0.2.py`
(class `ETFRotationStrategy`, method `next`).

Python floats are modelled as exact rationals (`ℚ`); a NaN indicator value
(insufficient history) is modelled as `none` in an `Option ℚ` field.
Python's `int(x)` truncation toward zero is modelled by `pyInt`.
Python dicts keyed by instrument name are modelled as association lists
over `String` (`setEntry` replaces the value at an existing key in place
and appends a fresh key at the end, matching dict insertion-order
semantics; data-feed names in the strategies are unique).
-/

namespace ETFRot

/-- Strategy parameters used by the scoring/allocation logic
(`params` tuple of `ETFRotationStrategy2`): `volume_weight`,
`max_etfs`, `position_limit` (the per-instrument cap). -/
structure Config where
  volume_weight : ℚ
  max_etfs : Nat
  position_limit : ℚ
deriving DecidableEq

/-- Per-instrument indicator snapshot for one rebalance date:
`ROC(short_period)`, `ROC(long_period)`, `StdDev(close)/close`,
`ROC(volume, short_period)`.  A `none` field models NaN
(insufficient history). -/
structure InstrumentSnapshot where
  id : String
  short_momentum : Option ℚ
  long_momentum : Option ℚ
  volatility : Option ℚ
  volume_change : Option ℚ
deriving DecidableEq

/-- Python `int(q)`: truncation toward zero. -/
def pyInt (q : ℚ) : ℤ :=
  if q < 0 then -(Int.ediv (-q).num ((-q).den : ℤ)) else Int.ediv q.num (q.den : ℤ)

/-- Scoring of one snapshot in the v2 strategy
(`etf_rotation_strategy_v2.py` lines 134-164): skip on NaN, skip when
both momenta are negative, weighted momentum divided by volatility
(with the `0.0001` floor for non-positive volatility), and admit only
strictly positive scores. -/
def scoreOf (cfg : Config) (s : InstrumentSnapshot) : Option ℚ :=
  match s.short_momentum, s.long_momentum, s.volatility, s.volume_change with
  | some sm, some lm, some vol, some vc =>
    if sm < 0 ∧ lm < 0 then none
    else
      let price_weight := 1 - cfg.volume_weight
      let weighted_momentum := price_weight * sm + cfg.volume_weight * vc
      let denom := if vol ≤ 0 then (1 / 10000 : ℚ) else vol
      let sc := weighted_momentum / denom
      if 0 < sc then some sc else none
  | _, _, _, _ => none

/-- Scoring of one snapshot in the v0.2 strategy
(`etf_rotation_strategy_v0.2.py` lines 128-154): identical to `scoreOf`
except every eligible snapshot is admitted, without the
positive-score filter. -/
def scoreOf02 (cfg : Config) (s : InstrumentSnapshot) : Option ℚ :=
  match s.short_momentum, s.long_momentum, s.volatility, s.volume_change with
  | some sm, some lm, some vol, some vc =>
    if sm < 0 ∧ lm < 0 then none
    else
      let price_weight := 1 - cfg.volume_weight
      let weighted_momentum := price_weight * sm + cfg.volume_weight * vc
      let denom := if vol ≤ 0 then (1 / 10000 : ℚ) else vol
      some (weighted_momentum / denom)
  | _, _, _, _ => none

/-- Stable insertion (descending by score) used to model Python's stable
`sorted(scores.items(), key=lambda x: x[1], reverse=True)`. -/
def insertDesc (x : String × ℚ) : List (String × ℚ) → List (String × ℚ)
  | [] => [x]
  | y :: l => if y.2 ≤ x.2 then x :: y :: l else y :: insertDesc x l

/-- Stable descending sort by the score component. -/
def sortDesc : List (String × ℚ) → List (String × ℚ)
  | [] => []
  | x :: l => insertDesc x (sortDesc l)

/-- `score` of the spec's ScoreEngine, v2 variant: build the `scores`
dict over the snapshots in feed order, then sort descending by score
(`etf_rotation_strategy_v2.py` lines 128-167). -/
def score (cfg : Config) (snaps : List InstrumentSnapshot) : List (String × ℚ) :=
  sortDesc (snaps.filterMap (fun s => (scoreOf cfg s).map (fun sc => (s.id, sc))))

/-- `score`, v0.2 variant (`etf_rotation_strategy_v0.2.py` lines 122-157). -/
def score02 (cfg : Config) (snaps : List InstrumentSnapshot) : List (String × ℚ) :=
  sortDesc (snaps.filterMap (fun s => (scoreOf02 cfg s).map (fun sc => (s.id, sc))))

/-- Weight assigned to a score `s` given the highest score `h`
(`etf_rotation_strategy_v2.py` lines 199-206): the cap for the top
score, `(s / h) * cap` otherwise. -/
def weightOf (cfg : Config) (h s : ℚ) : ℚ :=
  if s = h then cfg.position_limit else s / h * cfg.position_limit

/-- `select_targets` of the spec's Allocator: from the top candidate
list (already sorted descending, truncated to `max_etfs`), build the
`target_weights` map (`etf_rotation_strategy_v2.py` lines 194-206);
empty candidates give the empty map (line 191 returns early). -/
def selectTargets (cfg : Config) (top : List (String × ℚ)) : List (String × ℚ) :=
  match top with
  | [] => []
  | (e0, h) :: rest => ((e0, h) :: rest).map (fun p => (p.1, weightOf cfg h p.2))

/-- The full v2 target-weight pipeline: score, take the top `max_etfs`,
assign weights. -/
def targetWeights (cfg : Config) (snaps : List InstrumentSnapshot) : List (String × ℚ) :=
  selectTargets cfg ((score cfg snaps).take cfg.max_etfs)

/-- Trade direction of an emitted instruction. -/
inductive Side where
  | BUY : Side
  | SELL : Side
deriving DecidableEq, Repr

/-- One trade instruction: instrument id, direction, share count
(`self.sell(data, size)`, `self.buy(data, size)`, `self.close(data)`). -/
structure TradeInstruction where
  id : String
  side : Side
  shares : ℤ
deriving DecidableEq, Repr

/-- Lookup in an association list keyed by instrument id
(first matching entry, as in a Python dict with unique keys). -/
def lookupQ {α : Type} : List (String × α) → String → Option α
  | [], _ => none
  | e :: l, k => if e.1 = k then some e.2 else lookupQ l k

/-- Python dict assignment `d[k] = v`: replace the value at the first
occurrence of `k` in place, or append a fresh entry at the end. -/
def setEntry {α : Type} : List (String × α) → String → α → List (String × α)
  | [], k, v => [(k, v)]
  | e :: l, k, v => if e.1 = k then (k, v) :: l else e :: setEntry l k v

/-- Python dict deletion `del d[k]`. -/
def eraseEntry {α : Type} (l : List (String × α)) (k : String) : List (String × α) :=
  l.filter (fun e => ¬ e.1 = k)

/-- Broker-side portfolio state observed by the rebalance cycle:
per-instrument position sizes (`self.getposition(data).size`, an
integer that backtrader allows to be negative) and available cash. -/
structure Portfolio where
  positions : List (String × ℤ)
  cash : ℚ
deriving DecidableEq

/-- Position size for an instrument, `0` when the broker has no entry. -/
def posOf (p : Portfolio) (id : String) : ℤ :=
  (lookupQ p.positions id).getD 0

/-- `self.broker.getvalue()`: cash plus mark-to-market value of all
positions at current prices. -/
def totalValue (p : Portfolio) (prices : String → ℚ) : ℚ :=
  p.cash + (p.positions.map (fun e => (e.2 : ℚ) * prices e.1)).sum

/-- Instrument ids of a target-weight map. -/
def twIds (tw : List (String × ℚ)) : List String :=
  tw.map Prod.fst

/-- Phase-1 close instruction for one tracked holding
(`etf_rotation_strategy_v2.py` lines 180-188): when the instrument is
not among the selected targets and its broker position is positive,
close the whole position. -/
def phase1Ins (tw : List (String × ℚ)) (p : Portfolio) (e : String × ℤ) :
    Option TradeInstruction :=
  if e.1 ∈ twIds tw then none
  else if 0 < posOf p e.1 then some ⟨e.1, Side.SELL, posOf p e.1⟩ else none

/-- Target share count for one instrument: `int(portfolio_value *
target_weight / price)` (lines 216-224). -/
def targetShares (value w price : ℚ) : ℤ :=
  pyInt (value * w / price)

/-- Phase-2 sell instruction for one target entry (lines 212-234):
skip non-positive prices, sell down to the target share count when the
current position exceeds it. -/
def sellIns (p : Portfolio) (prices : String → ℚ) (value : ℚ) (e : String × ℚ) :
    Option TradeInstruction :=
  let price := prices e.1
  if price ≤ 0 then none
  else
    let ts := targetShares value e.2 price
    let cur := posOf p e.1
    if ts < cur then some ⟨e.1, Side.SELL, cur - ts⟩ else none

/-- Buy-phase instruction for one target entry (lines 245-267): skip
non-positive prices, buy up to the target share count when the current
position is below it.  Within one `next()` call the broker value and
positions are unchanged (orders execute on a later bar), so the
re-fetched `portfolio_value` of line 242 equals the pre-sell value and
`getposition` returns the same sizes as in the sell phase. -/
def buyIns (p : Portfolio) (prices : String → ℚ) (value : ℚ) (e : String × ℚ) :
    Option TradeInstruction :=
  let price := prices e.1
  if price ≤ 0 then none
  else
    let ts := targetShares value e.2 price
    let cur := posOf p e.1
    if cur < ts then some ⟨e.1, Side.BUY, ts - cur⟩ else none

/-- Update of the strategy's `current_holdings` dict by one sell-phase
iteration (lines 235-239): on a sell, record the target share count,
or delete the key when the target is not positive. -/
def trackSell (p : Portfolio) (prices : String → ℚ) (value : ℚ)
    (t : List (String × ℤ)) (e : String × ℚ) : List (String × ℤ) :=
  let price := prices e.1
  if price ≤ 0 then t
  else
    let ts := targetShares value e.2 price
    let cur := posOf p e.1
    if ts < cur then
      (if 0 < ts then setEntry t e.1 ts else eraseEntry t e.1)
    else t

/-- Update of `current_holdings` by one buy-phase iteration (line 268). -/
def trackBuy (p : Portfolio) (prices : String → ℚ) (value : ℚ)
    (t : List (String × ℤ)) (e : String × ℚ) : List (String × ℤ) :=
  let price := prices e.1
  if price ≤ 0 then t
  else
    let ts := targetShares value e.2 price
    let cur := posOf p e.1
    if cur < ts then setEntry t e.1 ts else t

/-- Result of one rebalance cycle: the emitted trade instructions in
order, and the updated `current_holdings` tracking dict. -/
structure RebalanceResult where
  instructions : List TradeInstruction
  tracking : List (String × ℤ)
deriving DecidableEq

/-- `rebalance` of the spec's Allocator, translated from
`etf_rotation_strategy_v2.py` lines 177-268: close tracked holdings
that are no longer targeted (deleting them from `current_holdings`),
then emit sell-phase reductions, then buy-phase increases.  When the
target map is empty the code returns right after phase 1 (line 191);
here the later phases are vacuous on an empty map, which is the same
instruction list. -/
def rebalance (tw : List (String × ℚ)) (tracking : List (String × ℤ))
    (p : Portfolio) (prices : String → ℚ) : RebalanceResult :=
  let value := totalValue p prices
  let sells1 := tracking.filterMap (phase1Ins tw p)
  let t1 := tracking.filter (fun e => e.1 ∈ twIds tw)
  let sells2 := tw.filterMap (sellIns p prices value)
  let t2 := tw.foldl (trackSell p prices value) t1
  let buys := tw.filterMap (buyIns p prices value)
  let t3 := tw.foldl (trackBuy p prices value) t2
  ⟨sells1 ++ sells2 ++ buys, t3⟩

/-- Effect of executing one instruction against the broker at current
prices: a sell decreases the position and adds the proceeds to cash, a
buy increases the position and pays from cash. -/
def applyIns (prices : String → ℚ) (p : Portfolio) (ins : TradeInstruction) :
    Portfolio :=
  match ins.side with
  | Side.SELL =>
    ⟨setEntry p.positions ins.id (posOf p ins.id - ins.shares),
     p.cash + (ins.shares : ℚ) * prices ins.id⟩
  | Side.BUY =>
    ⟨setEntry p.positions ins.id (posOf p ins.id + ins.shares),
     p.cash - (ins.shares : ℚ) * prices ins.id⟩

/-- Execute a list of instructions in order. -/
def applyAll (prices : String → ℚ) (p : Portfolio)
    (l : List TradeInstruction) : Portfolio :=
  l.foldl (applyIns prices) p

/-! ### Concrete inputs used by the spec's scenarios and by witnesses -/

/-- Scenario A config: `volume_weight = 0.3`, five slots, 20% cap. -/
def cfgA : Config := ⟨3/10, 5, 1/5⟩

/-- Scenario A snapshot X: `short_mom 0.10, long_mom 0.08, vol 0.02, volchg 0.05`. -/
def snapX : InstrumentSnapshot :=
  ⟨"X", some (1/10), some (2/25), some (1/50), some (1/20)⟩

/-- Scenario A snapshot Y: `short_mom -0.05, long_mom -0.03, vol 0.01, volchg 0.0`. -/
def snapY : InstrumentSnapshot :=
  ⟨"Y", some (-1/20), some (-3/100), some (1/100), some 0⟩

/-- Concrete price map used by rebalance witnesses: instrument `"A"`
trades at 10, instrument `"B"` at 4, everything else has price 0. -/
def pricesW : String → ℚ :=
  fun s => if s = "A" then 10 else if s = "B" then 4 else 0

/-- Concrete portfolio used by rebalance witnesses: 3 shares of `"A"`,
2 shares of `"B"`, 1000 cash. -/
def portW : Portfolio := ⟨[("A", 3), ("B", 2)], 1000⟩

/-! ### Lemmas about the descending sort -/

theorem insertDesc_perm (x : String × ℚ) (l : List (String × ℚ)) :
    (insertDesc x l).Perm (x :: l) := by
  induction l with
  | nil => simp [insertDesc]
  | cons y l ih =>
    by_cases h : y.2 ≤ x.2
    · simp [insertDesc, h]
    · simp only [insertDesc, if_neg h]
      exact ((ih.cons y).trans (List.Perm.swap x y l))

theorem sortDesc_perm (l : List (String × ℚ)) : (sortDesc l).Perm l := by
  induction l with
  | nil => simp [sortDesc]
  | cons x l ih =>
    exact (insertDesc_perm x (sortDesc l)).trans (ih.cons x)

theorem mem_sortDesc {l : List (String × ℚ)} {c : String × ℚ} :
    c ∈ sortDesc l ↔ c ∈ l :=
  (sortDesc_perm l).mem_iff

theorem insertDesc_pairwise {x : String × ℚ} {l : List (String × ℚ)}
    (hl : l.Pairwise (fun a b => b.2 ≤ a.2)) :
    (insertDesc x l).Pairwise (fun a b => b.2 ≤ a.2) := by
  induction l with
  | nil => simp [insertDesc]
  | cons y l ih =>
    rcases hl with _ | ⟨hy, hl⟩
    by_cases h : y.2 ≤ x.2
    · simp only [insertDesc, if_pos h]
      refine List.Pairwise.cons ?_ (List.Pairwise.cons hy hl)
      intro z hz
      rcases List.mem_cons.mp hz with rfl | hz'
      · exact h
      · exact le_trans (hy z hz') h
    · simp only [insertDesc, if_neg h]
      refine List.Pairwise.cons ?_ (ih hl)
      intro z hz
      rcases List.mem_cons.mp ((insertDesc_perm x l).mem_iff.mp hz) with rfl | hz'
      · exact le_of_not_le h
      · exact hy z hz'

theorem sortDesc_pairwise (l : List (String × ℚ)) :
    (sortDesc l).Pairwise (fun a b => b.2 ≤ a.2) := by
  induction l with
  | nil => simp [sortDesc]
  | cons x l ih => exact insertDesc_pairwise ih

/-! ### Lemmas about association lists -/

theorem lookupQ_setEntry_self {α : Type} (l : List (String × α)) (k : String) (v : α) :
    lookupQ (setEntry l k v) k = some v := by
  induction l with
  | nil => simp [setEntry, lookupQ]
  | cons e l ih =>
    by_cases h : e.1 = k
    · simp [setEntry, h, lookupQ]
    · simp [setEntry, h, lookupQ, ih]

theorem lookupQ_setEntry_ne {α : Type} (l : List (String × α)) (k k' : String) (v : α)
    (h : k' ≠ k) : lookupQ (setEntry l k v) k' = lookupQ l k' := by
  induction l with
  | nil => simp [setEntry, lookupQ, Ne.symm h]
  | cons e l ih =>
    by_cases he : e.1 = k
    · subst he
      simp [setEntry, lookupQ, Ne.symm h]
    · simp [setEntry, if_neg he, lookupQ, ih]

/-! ### Lemmas about scoring -/

theorem mem_score {cfg : Config} {snaps : List InstrumentSnapshot} {c : String × ℚ}
    (hc : c ∈ score cfg snaps) :
    ∃ s ∈ snaps, s.id = c.1 ∧ scoreOf cfg s = some c.2 := by
  rcases List.mem_filterMap.mp (mem_sortDesc.mp hc) with ⟨s, hs, hf⟩
  rcases Option.map_eq_some'.mp hf with ⟨sc, hsc, hpair⟩
  refine ⟨s, hs, ?_, ?_⟩
  · rw [← hpair]
  · rw [← hpair]; exact hsc

theorem mem_score02 {cfg : Config} {snaps : List InstrumentSnapshot} {c : String × ℚ}
    (hc : c ∈ score02 cfg snaps) :
    ∃ s ∈ snaps, s.id = c.1 ∧ scoreOf02 cfg s = some c.2 := by
  rcases List.mem_filterMap.mp (mem_sortDesc.mp hc) with ⟨s, hs, hf⟩
  rcases Option.map_eq_some'.mp hf with ⟨sc, hsc, hpair⟩
  refine ⟨s, hs, ?_, ?_⟩
  · rw [← hpair]
  · rw [← hpair]; exact hsc

theorem scoreOf_pos {cfg : Config} {s : InstrumentSnapshot} {sc : ℚ}
    (h : scoreOf cfg s = some sc) : 0 < sc := by
  rcases s with ⟨i, sm, lm, vol, vc⟩
  cases sm <;> cases lm <;> cases vol <;> cases vc <;>
    simp only [scoreOf] at h <;>
    try exact Option.noConfusion h
  split at h
  · exact Option.noConfusion h
  · split at h <;> split at h <;>
      first
        | exact Option.noConfusion h
        | (rename_i hpos; injection h with h'; rw [← h']; exact hpos)

theorem scoreOf_not_both_neg {cfg : Config} {s : InstrumentSnapshot} {sc : ℚ}
    (h : scoreOf cfg s = some sc) :
    ∃ sm lm, s.short_momentum = some sm ∧ s.long_momentum = some lm ∧
      ¬(sm < 0 ∧ lm < 0) := by
  rcases s with ⟨i, sm, lm, vol, vc⟩
  cases sm <;> cases lm <;> cases vol <;> cases vc <;>
    simp only [scoreOf] at h <;>
    try exact Option.noConfusion h
  split at h
  · exact Option.noConfusion h
  · rename_i hneg
    exact ⟨_, _, rfl, rfl, hneg⟩

theorem scoreOf02_not_both_neg {cfg : Config} {s : InstrumentSnapshot} {sc : ℚ}
    (h : scoreOf02 cfg s = some sc) :
    ∃ sm lm, s.short_momentum = some sm ∧ s.long_momentum = some lm ∧
      ¬(sm < 0 ∧ lm < 0) := by
  rcases s with ⟨i, sm, lm, vol, vc⟩
  cases sm <;> cases lm <;> cases vol <;> cases vc <;>
    simp only [scoreOf02] at h <;>
    try exact Option.noConfusion h
  split at h
  · exact Option.noConfusion h
  · rename_i hneg
    exact ⟨_, _, rfl, rfl, hneg⟩

theorem score_snd_pos {cfg : Config} {snaps : List InstrumentSnapshot}
    {c : String × ℚ} (hc : c ∈ score cfg snaps) : 0 < c.2 := by
  rcases mem_score hc with ⟨s, _, _, hsc⟩
  exact scoreOf_pos hsc

theorem score_pairwise (cfg : Config) (snaps : List InstrumentSnapshot) :
    (score cfg snaps).Pairwise (fun a b => b.2 ≤ a.2) :=
  sortDesc_pairwise _

/-- Facts about a non-empty selected top list in the v2 pipeline: the
leading score is positive, and every selected score is positive and at
most the leading score. -/
theorem top_bounds {cfg : Config} {snaps : List InstrumentSnapshot}
    {e0 : String} {h0 : ℚ} {rest : List (String × ℚ)}
    (ht : (score cfg snaps).take cfg.max_etfs = (e0, h0) :: rest) :
    0 < h0 ∧ ∀ p ∈ (e0, h0) :: rest, 0 < p.2 ∧ p.2 ≤ h0 := by
  have hsub : ((e0, h0) :: rest).Sublist (score cfg snaps) := by
    rw [← ht]; exact List.take_sublist _ _
  have hpair : ((e0, h0) :: rest).Pairwise (fun a b => b.2 ≤ a.2) :=
    List.Pairwise.sublist hsub (score_pairwise cfg snaps)
  have hmem : ∀ p ∈ (e0, h0) :: rest, 0 < p.2 := by
    intro p hp
    exact score_snd_pos (hsub.subset hp)
  refine ⟨hmem (e0, h0) (List.mem_cons_self _ _), ?_⟩
  intro p hp
  refine ⟨hmem p hp, ?_⟩
  rcases List.mem_cons.mp hp with rfl | hp'
  · exact le_refl _
  · rcases hpair with _ | ⟨hhead, _⟩
    exact hhead p hp'

/-! ### Lemmas about the emitted instructions -/

theorem phase1Ins_eq_some {tw : List (String × ℚ)} {p : Portfolio} {e : String × ℤ}
    {i : TradeInstruction} (h : phase1Ins tw p e = some i) :
    i = ⟨e.1, Side.SELL, posOf p e.1⟩ ∧ e.1 ∉ twIds tw ∧ 0 < posOf p e.1 := by
  unfold phase1Ins at h
  split at h
  · exact Option.noConfusion h
  · split at h
    · rename_i hmem hpos
      injection h with h'
      exact ⟨h'.symm, hmem, hpos⟩
    · exact Option.noConfusion h

theorem sellIns_eq_some {p : Portfolio} {prices : String → ℚ} {value : ℚ}
    {e : String × ℚ} {i : TradeInstruction}
    (h : sellIns p prices value e = some i) :
    i = ⟨e.1, Side.SELL, posOf p e.1 - targetShares value e.2 (prices e.1)⟩ ∧
      ¬ prices e.1 ≤ 0 ∧ targetShares value e.2 (prices e.1) < posOf p e.1 := by
  unfold sellIns at h
  dsimp only at h
  split at h
  · exact Option.noConfusion h
  · split at h
    · rename_i hpr hlt
      injection h with h'
      exact ⟨h'.symm, hpr, hlt⟩
    · exact Option.noConfusion h

theorem buyIns_eq_some {p : Portfolio} {prices : String → ℚ} {value : ℚ}
    {e : String × ℚ} {i : TradeInstruction}
    (h : buyIns p prices value e = some i) :
    i = ⟨e.1, Side.BUY, targetShares value e.2 (prices e.1) - posOf p e.1⟩ ∧
      ¬ prices e.1 ≤ 0 ∧ posOf p e.1 < targetShares value e.2 (prices e.1) := by
  unfold buyIns at h
  dsimp only at h
  split at h
  · exact Option.noConfusion h
  · split at h
    · rename_i hpr hlt
      injection h with h'
      exact ⟨h'.symm, hpr, hlt⟩
    · exact Option.noConfusion h

theorem sellIns_none_of_bad_price {p : Portfolio} {prices : String → ℚ} {value : ℚ}
    {e : String × ℚ} (h : prices e.1 ≤ 0) : sellIns p prices value e = none := by
  unfold sellIns
  rw [if_pos h]

theorem buyIns_none_of_bad_price {p : Portfolio} {prices : String → ℚ} {value : ℚ}
    {e : String × ℚ} (h : prices e.1 ≤ 0) : buyIns p prices value e = none := by
  unfold buyIns
  rw [if_pos h]

/-! ### Lemmas about executing instructions -/

theorem applyAll_cons (prices : String → ℚ) (p : Portfolio) (i : TradeInstruction)
    (l : List TradeInstruction) :
    applyAll prices p (i :: l) = applyAll prices (applyIns prices p i) l :=
  rfl

theorem applyAll_append (prices : String → ℚ) (p : Portfolio)
    (l₁ l₂ : List TradeInstruction) :
    applyAll prices p (l₁ ++ l₂) = applyAll prices (applyAll prices p l₁) l₂ :=
  List.foldl_append _ _ _ _

theorem posOf_applyIns_ne {prices : String → ℚ} {p : Portfolio}
    {ins : TradeInstruction} {id : String} (h : ins.id ≠ id) :
    posOf (applyIns prices p ins) id = posOf p id := by
  rcases ins with ⟨iid, side, sh⟩
  cases side <;>
    simp only [applyIns, posOf] <;>
    rw [lookupQ_setEntry_ne _ _ _ _ (Ne.symm h)]

theorem posOf_applyIns_sell (prices : String → ℚ) (p : Portfolio) (iid : String)
    (sh : ℤ) :
    posOf (applyIns prices p ⟨iid, Side.SELL, sh⟩) iid = posOf p iid - sh := by
  simp [applyIns, posOf, lookupQ_setEntry_self]

theorem posOf_applyIns_buy (prices : String → ℚ) (p : Portfolio) (iid : String)
    (sh : ℤ) :
    posOf (applyIns prices p ⟨iid, Side.BUY, sh⟩) iid = posOf p iid + sh := by
  simp [applyIns, posOf, lookupQ_setEntry_self]

theorem posOf_applyAll_of_not_mem {prices : String → ℚ}
    {l : List TradeInstruction} {id : String} (h : ∀ i ∈ l, i.id ≠ id) :
    ∀ p, posOf (applyAll prices p l) id = posOf p id := by
  induction l with
  | nil => intro p; rfl
  | cons i l ih =>
    intro p
    rw [applyAll_cons, ih (fun j hj => h j (List.mem_cons_of_mem _ hj)),
      posOf_applyIns_ne (h i (List.mem_cons_self _ _))]

theorem sumVal_setEntry (prices : String → ℚ) (l : List (String × ℤ)) (k : String)
    (v : ℤ) :
    ((setEntry l k v).map (fun e => (e.2 : ℚ) * prices e.1)).sum =
      (l.map (fun e => (e.2 : ℚ) * prices e.1)).sum +
        ((v : ℚ) - (((lookupQ l k).getD 0 : ℤ) : ℚ)) * prices k := by
  induction l with
  | nil =>
    simp [setEntry, lookupQ]
  | cons e l ih =>
    by_cases he : e.1 = k
    · simp only [setEntry, if_pos he, lookupQ, List.map_cons, List.sum_cons,
        Option.getD_some]
      rw [he]
      ring
    · simp only [setEntry, if_neg he, lookupQ, List.map_cons, List.sum_cons, ih]
      ring

theorem totalValue_applyIns (prices : String → ℚ) (p : Portfolio)
    (ins : TradeInstruction) :
    totalValue (applyIns prices p ins) prices = totalValue p prices := by
  rcases ins with ⟨iid, side, sh⟩
  cases side <;>
    simp only [applyIns, totalValue, sumVal_setEntry, posOf] <;>
    push_cast <;>
    ring

theorem totalValue_applyAll (prices : String → ℚ) (l : List TradeInstruction) :
    ∀ p, totalValue (applyAll prices p l) prices = totalValue p prices := by
  induction l with
  | nil => intro p; rfl
  | cons i l ih =>
    intro p
    rw [applyAll_cons, ih, totalValue_applyIns]

/-- Signed position delta contributed by an optional instruction. -/
def insDelta : Option TradeInstruction → ℤ
  | none => 0
  | some i =>
    match i.side with
    | Side.SELL => -i.shares
    | Side.BUY => i.shares

/-- Executing the instructions emitted (one per target-map entry, keyed
by the entry's id) moves the position of a targeted instrument by
exactly its own instruction's delta. -/
theorem posOf_applyAll_filterMap (prices : String → ℚ)
    (f : (String × ℚ) → Option TradeInstruction)
    (hf : ∀ e i, f e = some i → i.id = e.1) {id : String} {w : ℚ} :
    ∀ (tw : List (String × ℚ)), (tw.map Prod.fst).Nodup → (id, w) ∈ tw →
      ∀ p, posOf (applyAll prices p (tw.filterMap f)) id =
        posOf p id + insDelta (f (id, w)) := by
  intro tw
  induction tw with
  | nil => intro _ hmem; cases hmem
  | cons e tw ih =>
    intro hnd hmem p
    have hhead : e.1 ∉ tw.map Prod.fst := by
      have h' : (e.1 :: tw.map Prod.fst).Nodup := by simpa using hnd
      exact (List.nodup_cons.mp h').1
    have hnd' : (tw.map Prod.fst).Nodup := by
      have h' : (e.1 :: tw.map Prod.fst).Nodup := by simpa using hnd
      exact (List.nodup_cons.mp h').2
    rcases List.mem_cons.mp hmem with heq | hmem'
    · subst heq
      have hni : ∀ j ∈ tw.filterMap f, j.id ≠ id := by
        intro j hj hc
        rcases List.mem_filterMap.mp hj with ⟨e', he', hfj⟩
        have h1 : j.id = e'.1 := hf e' j hfj
        have hm : e'.1 ∈ tw.map Prod.fst := List.mem_map_of_mem _ he'
        rw [← h1, hc] at hm
        exact hhead hm
      cases hfe : f (id, w) with
      | none =>
        simp only [List.filterMap_cons, hfe]
        rw [posOf_applyAll_of_not_mem hni]
        simp [insDelta]
      | some i =>
        rcases i with ⟨iid, side, sh⟩
        have hiid : iid = id := hf _ _ hfe
        subst hiid
        simp only [List.filterMap_cons, hfe, applyAll_cons]
        rw [posOf_applyAll_of_not_mem hni]
        cases side
        · rw [posOf_applyIns_buy]
          simp [insDelta]
        · rw [posOf_applyIns_sell]
          simp [insDelta, sub_eq_add_neg]
    · have hne : e.1 ≠ id := by
        intro hc
        have hm : id ∈ tw.map Prod.fst := List.mem_map_of_mem Prod.fst hmem'
        rw [← hc] at hm
        exact hhead hm
      cases hfe : f e with
      | none =>
        simp only [List.filterMap_cons, hfe]
        exact ih hnd' hmem' p
      | some i =>
        have hiid : i.id = e.1 := hf _ _ hfe
        simp only [List.filterMap_cons, hfe, applyAll_cons]
        rw [ih hnd' hmem' (applyIns prices p i),
          posOf_applyIns_ne (by rw [hiid]; exact hne)]

/-! ### Lemmas about the tracking dict -/

theorem mem_setEntry {α : Type} {l : List (String × α)} {k : String} {v : α}
    {e : String × α} (h : e ∈ setEntry l k v) : e = (k, v) ∨ e ∈ l := by
  induction l with
  | nil => simpa [setEntry] using h
  | cons a l ih =>
    by_cases ha : a.1 = k
    · simp only [setEntry, if_pos ha] at h
      rcases List.mem_cons.mp h with rfl | h'
      · exact Or.inl rfl
      · exact Or.inr (List.mem_cons_of_mem _ h')
    · simp only [setEntry, if_neg ha] at h
      rcases List.mem_cons.mp h with rfl | h'
      · exact Or.inr (List.mem_cons_self _ _)
      · rcases ih h' with h'' | h''
        · exact Or.inl h''
        · exact Or.inr (List.mem_cons_of_mem _ h'')

theorem mem_eraseEntry {α : Type} {l : List (String × α)} {k : String}
    {e : String × α} (h : e ∈ eraseEntry l k) : e ∈ l :=
  (List.mem_filter.mp h).1

theorem keys_foldl_trackSell (p : Portfolio) (prices : String → ℚ) (value : ℚ)
    (S : List String) :
    ∀ (tw : List (String × ℚ)) (t : List (String × ℤ)),
      (∀ e ∈ t, e.1 ∈ S) → (∀ x ∈ tw, x.1 ∈ S) →
      ∀ e ∈ tw.foldl (trackSell p prices value) t, e.1 ∈ S := by
  intro tw
  induction tw with
  | nil => intro t ht _ e he; exact ht e he
  | cons x tw ih =>
    intro t ht htw e he
    rw [List.foldl_cons] at he
    refine ih (trackSell p prices value t x) ?_
      (fun y hy => htw y (List.mem_cons_of_mem _ hy)) e he
    intro e' he'
    unfold trackSell at he'
    dsimp only at he'
    split at he'
    · exact ht e' he'
    · split at he'
      · split at he'
        · rcases mem_setEntry he' with rfl | h'
          · exact htw x (List.mem_cons_self _ _)
          · exact ht e' h'
        · exact ht e' (mem_eraseEntry he')
      · exact ht e' he'

theorem keys_foldl_trackBuy (p : Portfolio) (prices : String → ℚ) (value : ℚ)
    (S : List String) :
    ∀ (tw : List (String × ℚ)) (t : List (String × ℤ)),
      (∀ e ∈ t, e.1 ∈ S) → (∀ x ∈ tw, x.1 ∈ S) →
      ∀ e ∈ tw.foldl (trackBuy p prices value) t, e.1 ∈ S := by
  intro tw
  induction tw with
  | nil => intro t ht _ e he; exact ht e he
  | cons x tw ih =>
    intro t ht htw e he
    rw [List.foldl_cons] at he
    refine ih (trackBuy p prices value t x) ?_
      (fun y hy => htw y (List.mem_cons_of_mem _ hy)) e he
    intro e' he'
    unfold trackBuy at he'
    dsimp only at he'
    split at he'
    · exact ht e' he'
    · split at he'
      · rcases mem_setEntry he' with rfl | h'
        · exact htw x (List.mem_cons_self _ _)
        · exact ht e' h'
      · exact ht e' he'

/-- Every key in the tracking dict returned by a rebalance cycle is a
targeted instrument. -/
theorem rebalance_tracking_keys (tw : List (String × ℚ)) (tracking : List (String × ℤ))
    (p : Portfolio) (prices : String → ℚ) :
    ∀ e ∈ (rebalance tw tracking p prices).tracking, e.1 ∈ twIds tw := by
  intro e he
  unfold rebalance at he
  dsimp only at he
  refine keys_foldl_trackBuy p prices (totalValue p prices) (twIds tw) tw _ ?_
    (fun x hx => List.mem_map_of_mem _ hx) e he
  intro e1 he1
  refine keys_foldl_trackSell p prices (totalValue p prices) (twIds tw) tw _ ?_
    (fun x hx => List.mem_map_of_mem _ hx) e1 he1
  intro e2 he2
  have h2 := List.mem_filter.mp he2
  exact of_decide_eq_true h2.2

/-! ### Further association-list lemmas -/

theorem lookupQ_eq_none_forall {α : Type} {l : List (String × α)} {k : String}
    (h : lookupQ l k = none) : ∀ e ∈ l, e.1 ≠ k := by
  induction l with
  | nil => intro e he; cases he
  | cons e l ih =>
    by_cases hek : e.1 = k
    · rw [lookupQ, if_pos hek] at h
      exact Option.noConfusion h
    · rw [lookupQ, if_neg hek] at h
      intro e' he'
      rcases List.mem_cons.mp he' with rfl | h'
      · exact hek
      · exact ih h e' h'

theorem filterMap_filter_of_none {α β : Type} (f : α → Option β) (q : α → Bool) :
    ∀ (l : List α), (∀ e ∈ l, q e = false → f e = none) →
      (l.filter q).filterMap f = l.filterMap f := by
  intro l
  induction l with
  | nil => intro _; rfl
  | cons e l ih =>
    intro h
    have ih' := ih (fun x hx hq => h x (List.mem_cons_of_mem _ hx) hq)
    cases hqe : q e with
    | false =>
      rw [List.filter_cons, hqe]
      simp [List.filterMap_cons, h e (List.mem_cons_self _ _) hqe, ih']
    | true =>
      rw [List.filter_cons, hqe]
      simp [List.filterMap_cons, ih']

theorem mem_twIds_filter_ne {tw : List (String × ℚ)} {id k : String} (hk : k ≠ id) :
    k ∈ twIds (tw.filter (fun e => ¬ e.1 = id)) ↔ k ∈ twIds tw := by
  unfold twIds
  simp only [List.mem_map, List.mem_filter, decide_eq_true_eq]
  constructor
  · rintro ⟨x, ⟨hx, _⟩, hxk⟩
    exact ⟨x, hx, hxk⟩
  · rintro ⟨x, hx, hxk⟩
    refine ⟨x, ⟨hx, ?_⟩, hxk⟩
    rw [hxk]
    exact hk

/-! ### Claim theorems -/

/-- **C1.** In every rebalance cycle of the v2 allocator, the produced
trade instruction sequence is partitioned into phases: it splits as
`sells ++ buys`, where every instruction of the first part is a SELL
(closing dropped holdings in phase 1 or reducing over-weight positions
in phase 2) and every instruction of the second part is a BUY, so every
SELL is emitted before any BUY of the same cycle. -/
theorem rebalance_sell_before_buy (tw : List (String × ℚ))
    (tracking : List (String × ℤ)) (p : Portfolio) (prices : String → ℚ) :
    ∃ sells buys,
      (rebalance tw tracking p prices).instructions = sells ++ buys ∧
      (∀ i ∈ sells, i.side = Side.SELL) ∧
      (∀ i ∈ buys, i.side = Side.BUY) := by
  refine ⟨tracking.filterMap (phase1Ins tw p) ++
      tw.filterMap (sellIns p prices (totalValue p prices)),
    tw.filterMap (buyIns p prices (totalValue p prices)), ?_, ?_, ?_⟩
  · unfold rebalance
    dsimp only
  · intro i hi
    rcases List.mem_append.mp hi with h | h
    · rcases List.mem_filterMap.mp h with ⟨e, _, hf⟩
      rw [(phase1Ins_eq_some hf).1]
    · rcases List.mem_filterMap.mp h with ⟨e, _, hf⟩
      rw [(sellIns_eq_some hf).1]
  · intro i hi
    rcases List.mem_filterMap.mp hi with ⟨e, _, hf⟩
    rw [(buyIns_eq_some hf).1]

/-- Witness for C1 at concrete inputs: the split of the instruction list
produced by rebalancing the concrete portfolio toward 20% A / 10% B. -/
theorem rebalance_sell_before_buy_witness :
    ∃ sells buys,
      (rebalance [("A", 1/5), ("B", 1/10)] [("A", 3), ("B", 2)] portW
        pricesW).instructions = sells ++ buys ∧
      (∀ i ∈ sells, i.side = Side.SELL) ∧
      (∀ i ∈ buys, i.side = Side.BUY) :=
  rebalance_sell_before_buy [("A", 1/5), ("B", 1/10)] [("A", 3), ("B", 2)]
    portW pricesW

/-- **C7.** When scoring yields zero eligible candidates the target
weight map is empty, and a rebalance cycle with an empty target map
emits a full-close SELL for every tracked holding with a positive
position and nothing else: every emitted instruction is a SELL for the
entire current position (zero BUY instructions; holding cash is a valid
state, the cycle returns normally). -/
theorem rebalance_no_candidates (cfg : Config) (tracking : List (String × ℤ))
    (p : Portfolio) (prices : String → ℚ) :
    (∀ snaps, score cfg snaps = [] → targetWeights cfg snaps = []) ∧
    (∀ e ∈ tracking, 0 < posOf p e.1 →
      (⟨e.1, Side.SELL, posOf p e.1⟩ : TradeInstruction) ∈
        (rebalance [] tracking p prices).instructions) ∧
    (∀ i ∈ (rebalance [] tracking p prices).instructions,
      i.side = Side.SELL ∧ i.shares = posOf p i.id) := by
  refine ⟨?_, ?_, ?_⟩
  · intro snaps hs
    unfold targetWeights
    rw [hs, List.take_nil]
    rfl
  · intro e he hpos
    unfold rebalance
    dsimp only
    simp only [List.filterMap_nil, List.append_nil]
    exact List.mem_filterMap.mpr ⟨e, he, by simp [phase1Ins, twIds, hpos]⟩
  · intro i hi
    unfold rebalance at hi
    dsimp only at hi
    simp only [List.filterMap_nil, List.append_nil] at hi
    rcases List.mem_filterMap.mp hi with ⟨e, _, hf⟩
    rcases phase1Ins_eq_some hf with ⟨rfl, _, _⟩
    exact ⟨rfl, rfl⟩

/-- Witness for C7 at concrete inputs: scoring the all-negative snapshot
gives no candidates hence an empty target map, and rebalancing to the
empty map from a portfolio holding A and B emits the full-close SELL
of A. -/
theorem rebalance_no_candidates_witness :
    targetWeights cfgA [snapY] = [] ∧
    (⟨"A", Side.SELL, (3 : ℤ)⟩ : TradeInstruction) ∈
      (rebalance [] [("A", 3), ("B", 2)] portW pricesW).instructions := by
  have h := rebalance_no_candidates cfgA [("A", 3), ("B", 2)] portW pricesW
  refine ⟨h.1 [snapY] (by norm_num [score, scoreOf, sortDesc, cfgA, snapY,
    List.filterMap_cons, List.filterMap_nil, Option.map]), ?_⟩
  have h2 := h.2.1 ("A", 3) (by decide) (by decide)
  simpa [posOf, lookupQ, portW] using h2

/-- **C8.** If an instrument targeted by the weight map has price ≤ 0 at
trade-sizing time, the rebalance cycle emits no instruction for it (the
sell- and buy-phase sizing both skip it), and — when the bad-price
instrument is not among the tracked holdings — the cycle's instruction
list is exactly what it would be with that instrument dropped from the
target map: the cycle completes normally for all other instruments
(being a total function, `rebalance` cannot raise). -/
theorem rebalance_skips_bad_price (tw : List (String × ℚ))
    (tracking : List (String × ℤ)) (p : Portfolio) (prices : String → ℚ)
    (id : String) (w : ℚ) (hmem : (id, w) ∈ tw) (hbad : prices id ≤ 0) :
    (∀ i ∈ (rebalance tw tracking p prices).instructions, i.id ≠ id) ∧
    (lookupQ tracking id = none →
      (rebalance tw tracking p prices).instructions =
        (rebalance (tw.filter (fun e => ¬ e.1 = id)) tracking p prices).instructions) := by
  have hidtw : id ∈ twIds tw := List.mem_map_of_mem Prod.fst hmem
  constructor
  · intro i hi
    unfold rebalance at hi
    dsimp only at hi
    rcases List.mem_append.mp hi with h12 | h3
    · rcases List.mem_append.mp h12 with h1 | h2
      · rcases List.mem_filterMap.mp h1 with ⟨e, _, hf⟩
        rcases phase1Ins_eq_some hf with ⟨rfl, hnotin, _⟩
        intro hc
        have hc' : e.1 = id := hc
        rw [hc'] at hnotin
        exact hnotin hidtw
      · rcases List.mem_filterMap.mp h2 with ⟨e, _, hf⟩
        rcases sellIns_eq_some hf with ⟨rfl, hpr, _⟩
        intro hc
        have hc' : e.1 = id := hc
        rw [hc'] at hpr
        exact hpr hbad
    · rcases List.mem_filterMap.mp h3 with ⟨e, _, hf⟩
      rcases buyIns_eq_some hf with ⟨rfl, hpr, _⟩
      intro hc
      have hc' : e.1 = id := hc
      rw [hc'] at hpr
      exact hpr hbad
  · intro htr
    unfold rebalance
    dsimp only
    have h1 : tracking.filterMap (phase1Ins tw p) =
        tracking.filterMap (phase1Ins (tw.filter (fun e => ¬ e.1 = id)) p) := by
      apply List.filterMap_congr
      intro e he
      have hne : e.1 ≠ id := lookupQ_eq_none_forall htr e he
      unfold phase1Ins
      by_cases hm : e.1 ∈ twIds tw
      · rw [if_pos hm, if_pos ((mem_twIds_filter_ne hne).mpr hm)]
      · rw [if_neg hm, if_neg (fun hc => hm ((mem_twIds_filter_ne hne).mp hc))]
    have hq : ∀ e ∈ tw, (fun e => decide (¬ e.1 = id)) e = false → prices e.1 ≤ 0 := by
      intro e _ hqe
      have : e.1 = id := by
        have := of_decide_eq_false hqe
        exact not_not.mp this
      rw [this]
      exact hbad
    have h2 : (tw.filter (fun e => ¬ e.1 = id)).filterMap
          (sellIns p prices (totalValue p prices)) =
        tw.filterMap (sellIns p prices (totalValue p prices)) := by
      apply filterMap_filter_of_none
      intro e he hqe
      exact sellIns_none_of_bad_price (hq e he hqe)
    have h3 : (tw.filter (fun e => ¬ e.1 = id)).filterMap
          (buyIns p prices (totalValue p prices)) =
        tw.filterMap (buyIns p prices (totalValue p prices)) := by
      apply filterMap_filter_of_none
      intro e he hqe
      exact buyIns_none_of_bad_price (hq e he hqe)
    rw [h1, h2, h3]

/-- Witness for C8 at concrete inputs: instrument `"C"` is targeted but
has price 0, so no instruction mentions it and dropping it from the
target map leaves the instruction list unchanged. -/
theorem rebalance_skips_bad_price_witness :
    (∀ i ∈ (rebalance [("A", 1/5), ("C", 1/5)] [("A", 3)] portW pricesW).instructions,
      i.id ≠ "C") ∧
    (rebalance [("A", 1/5), ("C", 1/5)] [("A", 3)] portW pricesW).instructions =
      (rebalance (([("A", 1/5), ("C", 1/5)] :
          List (String × ℚ)).filter (fun e => ¬ e.1 = "C"))
        [("A", 3)] portW pricesW).instructions := by
  have h := rebalance_skips_bad_price [("A", 1/5), ("C", 1/5)] [("A", 3)] portW
    pricesW "C" (1/5) (by norm_num) (by decide)
  exact ⟨h.1, h.2 (by decide)⟩

/-- **C6.** Rebalance is idempotent: execute the instructions of a first
rebalance call against the broker (at unchanged prices), then call
rebalance again with the same target weight map and the updated tracking
dict — the second call emits no instructions, because the portfolio is
already at target. -/
theorem rebalance_idempotent (tw : List (String × ℚ)) (tracking : List (String × ℤ))
    (p : Portfolio) (prices : String → ℚ) (hnd : (tw.map Prod.fst).Nodup) :
    (rebalance tw (rebalance tw tracking p prices).tracking
        (applyAll prices p (rebalance tw tracking p prices).instructions)
        prices).instructions = [] := by
  set r := rebalance tw tracking p prices with hr
  set p' := applyAll prices p r.instructions with hp'
  have hval : totalValue p' prices = totalValue p prices := by
    rw [hp']
    exact totalValue_applyAll prices _ p
  have hpos : ∀ id w, (id, w) ∈ tw → ¬ prices id ≤ 0 →
      posOf p' id = targetShares (totalValue p prices) w (prices id) := by
    intro id w hmem hpr
    have hfs : ∀ e i, sellIns p prices (totalValue p prices) e = some i → i.id = e.1 := by
      intro e i hf
      rw [(sellIns_eq_some hf).1]
    have hfb : ∀ e i, buyIns p prices (totalValue p prices) e = some i → i.id = e.1 := by
      intro e i hf
      rw [(buyIns_eq_some hf).1]
    have hs1 : ∀ j ∈ tracking.filterMap (phase1Ins tw p), j.id ≠ id := by
      intro j hj hc
      rcases List.mem_filterMap.mp hj with ⟨e, _, hf⟩
      rcases phase1Ins_eq_some hf with ⟨rfl, hnotin, _⟩
      have hc' : e.1 = id := hc
      rw [hc'] at hnotin
      exact hnotin (List.mem_map_of_mem Prod.fst hmem)
    rw [hp', hr]
    unfold rebalance
    dsimp only
    rw [applyAll_append,
      posOf_applyAll_filterMap prices (buyIns p prices (totalValue p prices)) hfb
        tw hnd hmem,
      applyAll_append,
      posOf_applyAll_filterMap prices (sellIns p prices (totalValue p prices)) hfs
        tw hnd hmem,
      posOf_applyAll_of_not_mem hs1]
    unfold sellIns buyIns
    dsimp only
    rw [if_neg hpr, if_neg hpr]
    rcases lt_trichotomy (targetShares (totalValue p prices) w (prices id))
        (posOf p id) with hlt | heq | hgt
    · rw [if_pos hlt, if_neg (not_lt_of_gt hlt)]
      unfold insDelta
      dsimp only
      omega
    · rw [if_neg (by rw [heq]; exact lt_irrefl _),
        if_neg (by rw [heq]; exact lt_irrefl _)]
      unfold insDelta
      dsimp only
      omega
    · rw [if_neg (not_lt_of_gt hgt), if_pos hgt]
      unfold insDelta
      dsimp only
      omega
  have htrk : ∀ e ∈ r.tracking, e.1 ∈ twIds tw := by
    intro e he
    exact rebalance_tracking_keys tw tracking p prices e (by rw [← hr]; exact he)
  unfold rebalance
  dsimp only
  rw [List.append_eq_nil, List.append_eq_nil]
  refine ⟨⟨?_, ?_⟩, ?_⟩
  · exact List.filterMap_eq_nil_iff.mpr (fun e he => by
      unfold phase1Ins
      rw [if_pos (htrk e he)])
  · refine List.filterMap_eq_nil_iff.mpr (fun e he => ?_)
    by_cases hpr : prices e.1 ≤ 0
    · exact sellIns_none_of_bad_price hpr
    · unfold sellIns
      dsimp only
      rw [if_neg hpr, hval, hpos e.1 e.2 (by rw [Prod.mk.eta]; exact he) hpr]
      rw [if_neg (lt_irrefl _)]
  · refine List.filterMap_eq_nil_iff.mpr (fun e he => ?_)
    by_cases hpr : prices e.1 ≤ 0
    · exact buyIns_none_of_bad_price hpr
    · unfold buyIns
      dsimp only
      rw [if_neg hpr, hval, hpos e.1 e.2 (by rw [Prod.mk.eta]; exact he) hpr]
      rw [if_neg (lt_irrefl _)]

/-- Witness for C6 at concrete inputs: rebalancing the portfolio holding
3 A and 2 B toward 20% A / 10% B, executing the emitted instructions and
rebalancing again yields no instructions. -/
theorem rebalance_idempotent_witness :
    (rebalance [("A", 1/5), ("B", 1/10)]
        (rebalance [("A", 1/5), ("B", 1/10)] [("A", 3), ("B", 2)] portW pricesW).tracking
        (applyAll pricesW portW
          (rebalance [("A", 1/5), ("B", 1/10)] [("A", 3), ("B", 2)] portW
            pricesW).instructions)
        pricesW).instructions = [] :=
  rebalance_idempotent [("A", 1/5), ("B", 1/10)] [("A", 3), ("B", 2)] portW pricesW
    (by decide)

/-- **C2.** For every target weight map produced by the v2 pipeline
(`select_targets` applied to the scored, truncated candidate list), the
sum of all weights is at most `per_instrument_cap * max_candidates`
and every individual weight lies in `[0, per_instrument_cap]`. -/
theorem targetWeights_bounds (cfg : Config) (snaps : List InstrumentSnapshot)
    (hcap : 0 ≤ cfg.position_limit) :
    ((targetWeights cfg snaps).map Prod.snd).sum ≤
      cfg.position_limit * cfg.max_etfs ∧
    ∀ e ∈ targetWeights cfg snaps, 0 ≤ e.2 ∧ e.2 ≤ cfg.position_limit := by
  unfold targetWeights
  cases hc : (score cfg snaps).take cfg.max_etfs with
  | nil =>
    constructor
    · simp only [selectTargets, List.map_nil, List.sum_nil]
      exact mul_nonneg hcap (Nat.cast_nonneg _)
    · intro e he
      simp [selectTargets] at he
  | cons hd rest =>
    rcases hd with ⟨e0, h0⟩
    obtain ⟨hh0, hbd⟩ := top_bounds hc
    have hlen : ((e0, h0) :: rest).length ≤ cfg.max_etfs := by
      rw [← hc]
      exact List.length_take_le _ _
    have hwb : ∀ q ∈ (e0, h0) :: rest,
        0 ≤ weightOf cfg h0 q.2 ∧ weightOf cfg h0 q.2 ≤ cfg.position_limit := by
      intro q hq
      obtain ⟨hqpos, hqle⟩ := hbd q hq
      unfold weightOf
      by_cases he : q.2 = h0
      · rw [if_pos he]
        exact ⟨hcap, le_refl _⟩
      · rw [if_neg he]
        constructor
        · exact mul_nonneg (le_of_lt (div_pos hqpos hh0)) hcap
        · have h1 : q.2 / h0 ≤ 1 := (div_le_one hh0).mpr hqle
          calc q.2 / h0 * cfg.position_limit
              ≤ 1 * cfg.position_limit := mul_le_mul_of_nonneg_right h1 hcap
            _ = cfg.position_limit := one_mul _
    constructor
    · simp only [selectTargets]
      have hsum : ∀ x ∈ ((((e0, h0) :: rest).map
          (fun q => (q.1, weightOf cfg h0 q.2))).map Prod.snd),
          x ≤ cfg.position_limit := by
        intro x hx
        rcases List.mem_map.mp hx with ⟨y, hy, rfl⟩
        rcases List.mem_map.mp hy with ⟨q, hq, rfl⟩
        exact (hwb q hq).2
      refine le_trans (List.sum_le_card_nsmul _ _ hsum) ?_
      rw [List.length_map, List.length_map, nsmul_eq_mul]
      calc (((e0, h0) :: rest).length : ℚ) * cfg.position_limit
          ≤ (cfg.max_etfs : ℚ) * cfg.position_limit := by
            apply mul_le_mul_of_nonneg_right _ hcap
            exact_mod_cast hlen
        _ = cfg.position_limit * cfg.max_etfs := mul_comm _ _
    · intro e he
      simp only [selectTargets] at he
      rcases List.mem_map.mp he with ⟨q, hq, rfl⟩
      exact hwb q hq

/-- Witness for C2 at concrete inputs: the Scenario A snapshot set under
`cfgA` (cap 1/5, five slots). -/
theorem targetWeights_bounds_witness :
    ((targetWeights cfgA [snapX, snapY]).map Prod.snd).sum ≤
      cfgA.position_limit * cfgA.max_etfs ∧
    ∀ e ∈ targetWeights cfgA [snapX, snapY],
      0 ≤ e.2 ∧ e.2 ≤ cfgA.position_limit :=
  targetWeights_bounds cfgA [snapX, snapY] (by norm_num [cfgA])

/-- **C3.** In both rotation variants, every candidate returned by the
scoring operation originates from a snapshot whose short and long
momentum are defined and not both negative: an instrument with
`short_momentum < 0` and `long_momentum < 0` is dropped by the
eligibility filter and never appears in the candidate list. -/
theorem score_excludes_double_negative (cfg : Config)
    (snaps : List InstrumentSnapshot) :
    (∀ c ∈ score cfg snaps, ∃ s ∈ snaps, s.id = c.1 ∧ ∃ sm lm,
      s.short_momentum = some sm ∧ s.long_momentum = some lm ∧
      ¬(sm < 0 ∧ lm < 0)) ∧
    (∀ c ∈ score02 cfg snaps, ∃ s ∈ snaps, s.id = c.1 ∧ ∃ sm lm,
      s.short_momentum = some sm ∧ s.long_momentum = some lm ∧
      ¬(sm < 0 ∧ lm < 0)) := by
  constructor
  · intro c hc
    rcases mem_score hc with ⟨s, hs, hid, hsc⟩
    rcases scoreOf_not_both_neg hsc with ⟨sm, lm, h1, h2, h3⟩
    exact ⟨s, hs, hid, sm, lm, h1, h2, h3⟩
  · intro c hc
    rcases mem_score02 hc with ⟨s, hs, hid, hsc⟩
    rcases scoreOf02_not_both_neg hsc with ⟨sm, lm, h1, h2, h3⟩
    exact ⟨s, hs, hid, sm, lm, h1, h2, h3⟩

/-- Witness for C3: candidate X of Scenario A originates from an eligible
snapshot with defined, not-both-negative momenta. -/
theorem score_excludes_double_negative_witness :
    ∃ s ∈ [snapX, snapY], s.id = "X" ∧ ∃ sm lm,
      s.short_momentum = some sm ∧ s.long_momentum = some lm ∧
      ¬(sm < 0 ∧ lm < 0) :=
  (score_excludes_double_negative cfgA [snapX, snapY]).1 ("X", 17/4)
    (by norm_num [score, scoreOf, sortDesc, insertDesc, cfgA, snapX, snapY,
      List.filterMap_cons, List.filterMap_nil, Option.map])

/-- Counterexample for C4 as stated: on the Scenario A input, candidate X
receives score 17/4 = 4.25, not 13/4 = 3.25 — the claim's arithmetic
`(0.7*0.10 + 0.3*0.05)/0.02 = 3.25` is wrong (the expression evaluates
to 4.25), so the produced list is `[("X", 4.25)]` and does not contain
`("X", 3.25)`. -/
theorem score_scenarioA_counterexample :
    score cfgA [snapX, snapY] = [("X", 17/4)] ∧
    ("X", (13/4 : ℚ)) ∉ score cfgA [snapX, snapY] := by
  have h : score cfgA [snapX, snapY] = [("X", 17/4)] := by
    norm_num [score, scoreOf, sortDesc, insertDesc, cfgA, snapX, snapY,
      List.filterMap_cons, List.filterMap_nil, Option.map]
  refine ⟨h, ?_⟩
  rw [h]
  intro hmem
  rcases List.mem_singleton.mp hmem with heq
  have : (13/4 : ℚ) = 17/4 := congrArg Prod.snd heq
  norm_num at this

/-- **C4 (amended).** `score()` computes each admitted candidate's score
as `weighted_momentum / denom` with `weighted_momentum =
(1 - volume_weight) * short_momentum + volume_weight * volume_change`
and `denom = volatility` when `volatility > 0`, else the small positive
epsilon `1/10000`; on the Scenario A input, Y is excluded and X receives
score `(0.7*0.10 + 0.3*0.05)/0.02 = 4.25` (the spec's value 3.25 is an
arithmetic slip). -/
theorem score_formula_and_scenarioA :
    (∀ (cfg : Config) (s : InstrumentSnapshot) (sc : ℚ),
      scoreOf cfg s = some sc →
      ∃ sm lm vol vc,
        s.short_momentum = some sm ∧ s.long_momentum = some lm ∧
        s.volatility = some vol ∧ s.volume_change = some vc ∧
        (0 < vol →
          sc = ((1 - cfg.volume_weight) * sm + cfg.volume_weight * vc) / vol) ∧
        (vol ≤ 0 →
          sc = ((1 - cfg.volume_weight) * sm + cfg.volume_weight * vc) /
            (1 / 10000))) ∧
    (∀ (cfg : Config) (s : InstrumentSnapshot) (sc : ℚ),
      scoreOf02 cfg s = some sc →
      ∃ sm lm vol vc,
        s.short_momentum = some sm ∧ s.long_momentum = some lm ∧
        s.volatility = some vol ∧ s.volume_change = some vc ∧
        (0 < vol →
          sc = ((1 - cfg.volume_weight) * sm + cfg.volume_weight * vc) / vol) ∧
        (vol ≤ 0 →
          sc = ((1 - cfg.volume_weight) * sm + cfg.volume_weight * vc) /
            (1 / 10000))) ∧
    score cfgA [snapX, snapY] = [("X", 17/4)] := by
  refine ⟨?_, ?_, ?_⟩
  · intro cfg s sc h
    rcases s with ⟨i, sm, lm, vol, vc⟩
    cases sm <;> cases lm <;> cases vol <;> cases vc <;>
      simp only [scoreOf] at h <;>
      try exact Option.noConfusion h
    rename_i a b v w
    split at h
    · exact Option.noConfusion h
    · split at h
      · rename_i hv
        split at h
        · injection h with h'
          refine ⟨a, b, v, w, rfl, rfl, rfl, rfl, ?_, fun _ => h'.symm⟩
          intro hv'
          exact absurd hv' (not_lt.mpr hv)
        · exact Option.noConfusion h
      · rename_i hv
        split at h
        · injection h with h'
          refine ⟨a, b, v, w, rfl, rfl, rfl, rfl, fun _ => h'.symm, ?_⟩
          intro hvle
          exact absurd hvle hv
        · exact Option.noConfusion h
  · intro cfg s sc h
    rcases s with ⟨i, sm, lm, vol, vc⟩
    cases sm <;> cases lm <;> cases vol <;> cases vc <;>
      simp only [scoreOf02] at h <;>
      try exact Option.noConfusion h
    rename_i a b v w
    split at h
    · exact Option.noConfusion h
    · split at h
      · rename_i hv
        injection h with h'
        refine ⟨a, b, v, w, rfl, rfl, rfl, rfl, ?_, fun _ => h'.symm⟩
        intro hv'
        exact absurd hv' (not_lt.mpr hv)
      · rename_i hv
        injection h with h'
        refine ⟨a, b, v, w, rfl, rfl, rfl, rfl, fun _ => h'.symm, ?_⟩
        intro hvle
        exact absurd hvle hv
  · norm_num [score, scoreOf, sortDesc, insertDesc, cfgA, snapX, snapY,
      List.filterMap_cons, List.filterMap_nil, Option.map]

/-- Witness for C4 (amended): the formula instantiated on snapshot X of
Scenario A, whose admitted score is 17/4. -/
theorem score_formula_and_scenarioA_witness :
    ∃ sm lm vol vc,
      snapX.short_momentum = some sm ∧ snapX.long_momentum = some lm ∧
      snapX.volatility = some vol ∧ snapX.volume_change = some vc ∧
      (0 < vol →
        (17/4 : ℚ) = ((1 - cfgA.volume_weight) * sm + cfgA.volume_weight * vc) / vol) ∧
      (vol ≤ 0 →
        (17/4 : ℚ) = ((1 - cfgA.volume_weight) * sm + cfgA.volume_weight * vc) /
          (1 / 10000)) :=
  (score_formula_and_scenarioA).1 cfgA snapX (17/4)
    (by norm_num [scoreOf, snapX, cfgA])

/-- **C5.** `select_targets` assigns the per-instrument cap to every
candidate whose score equals the highest (leading) score and
`(score / highest) * cap` to every other selected candidate; on
Scenario C, candidates `[("A",10),("B",5)]` with cap `0.2` yield
`{"A": 0.2, "B": 0.1}`. -/
theorem selectTargets_weights (cfg : Config) :
    (∀ (e0 : String) (h0 : ℚ) (rest : List (String × ℚ)),
      ∀ q ∈ (e0, h0) :: rest,
        (q.1, weightOf cfg h0 q.2) ∈ selectTargets cfg ((e0, h0) :: rest) ∧
        (q.2 = h0 → weightOf cfg h0 q.2 = cfg.position_limit) ∧
        (q.2 ≠ h0 → weightOf cfg h0 q.2 = q.2 / h0 * cfg.position_limit)) ∧
    selectTargets cfgA [("A", 10), ("B", 5)] = [("A", 1/5), ("B", 1/10)] := by
  constructor
  · intro e0 h0 rest q hq
    refine ⟨?_, ?_, ?_⟩
    · simp only [selectTargets]
      exact List.mem_map_of_mem _ hq
    · intro hqh
      unfold weightOf
      rw [if_pos hqh]
    · intro hqh
      unfold weightOf
      rw [if_neg hqh]
  · norm_num [selectTargets, weightOf, cfgA]

/-- Witness for C5: candidate B of Scenario C receives
`(5 / 10) * 0.2 = 0.1`. -/
theorem selectTargets_weights_witness :
    (("B", weightOf cfgA 10 5) : String × ℚ) ∈
      selectTargets cfgA [("A", 10), ("B", 5)] ∧
    ((5 : ℚ) ≠ 10 → weightOf cfgA 10 5 = 5 / 10 * cfgA.position_limit) := by
  have h := (selectTargets_weights cfgA).1 "A" 10 [("B", 5)] ("B", 5)
    (by norm_num)
  exact ⟨h.1, fun hne => h.2.2 hne⟩

/-- **C9.** In the v2 variant every candidate admitted to the scores map
has strictly positive score; hence whenever the selected set is
non-empty its highest (leading) score is strictly positive and, for a
positive cap, every computed target weight is strictly positive — the
negative-weight case is unreachable without any clamp. -/
theorem v2_scores_positive (cfg : Config) (snaps : List InstrumentSnapshot) :
    (∀ c ∈ score cfg snaps, 0 < c.2) ∧
    (∀ (e0 : String) (h0 : ℚ) (rest : List (String × ℚ)),
      (score cfg snaps).take cfg.max_etfs = (e0, h0) :: rest → 0 < h0) ∧
    (0 < cfg.position_limit →
      ∀ e ∈ targetWeights cfg snaps, 0 < e.2) := by
  refine ⟨fun c hc => score_snd_pos hc, ?_, ?_⟩
  · intro e0 h0 rest ht
    exact (top_bounds ht).1
  · intro hcap e he
    unfold targetWeights at he
    cases hc : (score cfg snaps).take cfg.max_etfs with
    | nil =>
      rw [hc] at he
      simp [selectTargets] at he
    | cons hd rest =>
      rcases hd with ⟨e0, h0⟩
      rw [hc] at he
      obtain ⟨hh0, hbd⟩ := top_bounds hc
      simp only [selectTargets] at he
      rcases List.mem_map.mp he with ⟨q, hq, rfl⟩
      obtain ⟨hqpos, _⟩ := hbd q hq
      dsimp only
      unfold weightOf
      by_cases hqh : q.2 = h0
      · rw [if_pos hqh]
        exact hcap
      · rw [if_neg hqh]
        exact mul_pos (div_pos hqpos hh0) hcap

/-- Witness for C9: candidate X of Scenario A has positive score, and
all target weights computed from that scenario are positive. -/
theorem v2_scores_positive_witness :
    (0 < (("X", (17 : ℚ)/4) : String × ℚ).2) ∧
    ∀ e ∈ targetWeights cfgA [snapX, snapY], 0 < e.2 := by
  have h := v2_scores_positive cfgA [snapX, snapY]
  refine ⟨h.1 ("X", 17/4) ?_, h.2.2 (by norm_num [cfgA])⟩
  norm_num [score, scoreOf, sortDesc, insertDesc, cfgA, snapX, snapY,
    List.filterMap_cons, List.filterMap_nil, Option.map]

/-- **C10.** Target weight assignment in the v2 pipeline is monotone in
score: among the candidates selected in one cycle, a candidate with
greater or equal score receives a greater or equal weight, and a
candidate whose score equals the highest (leading) score receives
exactly the per-instrument position limit. -/
theorem weight_monotone (cfg : Config) (snaps : List InstrumentSnapshot)
    (e0 : String) (h0 : ℚ) (rest : List (String × ℚ))
    (ht : (score cfg snaps).take cfg.max_etfs = (e0, h0) :: rest)
    (hcap : 0 ≤ cfg.position_limit) :
    selectTargets cfg ((e0, h0) :: rest) =
      ((e0, h0) :: rest).map (fun q => (q.1, weightOf cfg h0 q.2)) ∧
    (∀ p ∈ (e0, h0) :: rest, ∀ q ∈ (e0, h0) :: rest, q.2 ≤ p.2 →
      weightOf cfg h0 q.2 ≤ weightOf cfg h0 p.2) ∧
    (∀ p ∈ (e0, h0) :: rest, p.2 = h0 →
      weightOf cfg h0 p.2 = cfg.position_limit) := by
  obtain ⟨hh0, hbd⟩ := top_bounds ht
  refine ⟨by simp [selectTargets], ?_, ?_⟩
  · intro p hp q hq hqp
    obtain ⟨hppos, hple⟩ := hbd p hp
    obtain ⟨hqpos, hqle⟩ := hbd q hq
    unfold weightOf
    by_cases hph : p.2 = h0
    · rw [if_pos hph]
      by_cases hqh : q.2 = h0
      · rw [if_pos hqh]
      · rw [if_neg hqh]
        have h1 : q.2 / h0 ≤ 1 := (div_le_one hh0).mpr hqle
        calc q.2 / h0 * cfg.position_limit
            ≤ 1 * cfg.position_limit := mul_le_mul_of_nonneg_right h1 hcap
          _ = cfg.position_limit := one_mul _
    · rw [if_neg hph]
      have hqh : q.2 ≠ h0 := by
        intro hq0
        rw [hq0] at hqp
        exact hph (le_antisymm hple hqp)
      rw [if_neg hqh]
      exact mul_le_mul_of_nonneg_right
        ((div_le_div_iff_of_pos_right hh0).mpr hqp) hcap
  · intro p _ hp0
    unfold weightOf
    rw [if_pos hp0]

/-- Witness for C10 on the Scenario A pipeline, whose selected set is the
single candidate `("X", 17/4)`. -/
theorem weight_monotone_witness :
    selectTargets cfgA [("X", (17 : ℚ)/4)] =
      [(("X", (17 : ℚ)/4) : String × ℚ)].map
        (fun q => (q.1, weightOf cfgA (17/4) q.2)) ∧
    (∀ p ∈ [(("X", (17 : ℚ)/4) : String × ℚ)],
      ∀ q ∈ [(("X", (17 : ℚ)/4) : String × ℚ)], q.2 ≤ p.2 →
        weightOf cfgA (17/4) q.2 ≤ weightOf cfgA (17/4) p.2) ∧
    (∀ p ∈ [(("X", (17 : ℚ)/4) : String × ℚ)], p.2 = 17/4 →
      weightOf cfgA (17/4) p.2 = cfgA.position_limit) :=
  weight_monotone cfgA [snapX, snapY] "X" (17/4) []
    (by norm_num [score, scoreOf, sortDesc, insertDesc, cfgA, snapX, snapY,
      List.filterMap_cons, List.filterMap_nil, Option.map])
    (by norm_num [cfgA])

end ETFRot
